import Mathlib

/-!
Verification of the event-rate tracking core of `apm.go`.

The Go source is shallowly embedded: the `RingBuffer` struct becomes a Lean
structure over `List ℤ` (Go `int64` timestamps fit the claims' ranges, so `ℤ`
with no wraparound is faithful here: all values stay far below 2^63), the
methods become pure functions, and Go runtime panics (out-of-range slice
index, `make` with negative length) are modelled as `Option.none` where a
claim depends on them.  Mutexes guard the Go code against concurrent access;
the claims under study are all about sequential behaviour, so the embedding
drops them.
-/

/-- Model of the Go struct `RingBuffer`: backing slice `data`, logical `size`,
fixed `capacity`, and `head`, the next overwrite slot once full. -/
structure RingBuffer where
  data : List ℤ
  size : ℕ
  capacity : ℕ
  head : ℕ
  deriving Repr, DecidableEq

/-- Model of `NewRingBuffer` for a non-negative capacity: `make([]int64, capacity)`
zero-fills the backing slice; `size` and `head` start at 0. -/
def NewRingBuffer (capacity : ℕ) : RingBuffer :=
  { data := List.replicate capacity 0, size := 0, capacity := capacity, head := 0 }

/-- Model of `NewRingBuffer` as written in Go, taking a Go `int` argument:
`make([]int64, capacity)` panics for a negative length (modelled `none`) and
otherwise succeeds with no validation of any kind — there is no capacity
check and no error return in the source. -/
def NewRingBufferGo (capacity : ℤ) : Option RingBuffer :=
  if capacity < 0 then none else some (NewRingBuffer capacity.toNat)

/-- Model of `(*RingBuffer).Append`: if not yet full, store at index `size` and
grow; otherwise overwrite index `head` and advance `head` modulo `capacity`.
`List.set` is the in-bounds Go slice store (the indices used are proved in
bounds under `RingBuffer.WF`). -/
def RingBuffer.Append (rb : RingBuffer) (value : ℤ) : RingBuffer :=
  if rb.size < rb.capacity then
    { rb with data := rb.data.set rb.size value, size := rb.size + 1 }
  else
    { rb with data := rb.data.set rb.head value, head := (rb.head + 1) % rb.capacity }

/-- Model of `(*RingBuffer).GetAll` (the snapshot): a fresh list whose `i`-th
element is `data[(head+i) % capacity]`, for `i = 0 .. size-1`. -/
def RingBuffer.GetAll (rb : RingBuffer) : List ℤ :=
  (List.range rb.size).map (fun i => rb.data.getD ((rb.head + i) % rb.capacity) 0)

/-- A sequence of `Append` calls, oldest first. -/
def appendList (rb : RingBuffer) (vs : List ℤ) : RingBuffer :=
  vs.foldl RingBuffer.Append rb

/-- Well-formedness of a buffer: the backing slice has exactly `capacity`
slots, `size` never exceeds `capacity`, `head` is a valid slot index, and
`head` stays 0 until the buffer first fills. -/
def RingBuffer.WF (rb : RingBuffer) : Prop :=
  rb.data.length = rb.capacity ∧ rb.size ≤ rb.capacity ∧ rb.head < rb.capacity ∧
    (rb.size < rb.capacity → rb.head = 0)

instance (rb : RingBuffer) : Decidable rb.WF := by
  unfold RingBuffer.WF; infer_instance

theorem WF_new (c : ℕ) (hc : 0 < c) : (NewRingBuffer c).WF := by
  refine ⟨List.length_replicate .., Nat.zero_le _, hc, fun _ => rfl⟩

theorem capacity_Append (rb : RingBuffer) (v : ℤ) :
    (rb.Append v).capacity = rb.capacity := by
  unfold RingBuffer.Append; split <;> rfl

theorem WF_Append (rb : RingBuffer) (v : ℤ) (h : rb.WF) : (rb.Append v).WF := by
  obtain ⟨hlen, hsz, hhd, hh0⟩ := h
  unfold RingBuffer.Append RingBuffer.WF
  split <;> dsimp only
  · exact ⟨by simpa using hlen, by omega, hhd, fun hlt => hh0 (by omega)⟩
  · exact ⟨by simpa using hlen, hsz, Nat.mod_lt _ (by omega), fun hlt => absurd hlt (by omega)⟩

theorem size_Append (rb : RingBuffer) (v : ℤ) (h : rb.size ≤ rb.capacity) :
    (rb.Append v).size = min (rb.size + 1) rb.capacity := by
  unfold RingBuffer.Append
  split <;> dsimp only <;> omega

theorem mod_add_ne_self (c hd m : ℕ) (hc : hd < c) (h1 : 1 ≤ m) (h2 : m < c) :
    (hd + m) % c ≠ hd := by
  intro h
  rcases Nat.lt_or_ge (hd + m) c with hlt | hge
  · rw [Nat.mod_eq_of_lt hlt] at h; omega
  · rw [Nat.mod_eq_sub_mod hge, Nat.mod_eq_of_lt (by omega)] at h; omega

theorem GetAll_Append_notFull (rb : RingBuffer) (v : ℤ) (h : rb.WF)
    (hlt : rb.size < rb.capacity) :
    (rb.Append v).GetAll = rb.GetAll ++ [v] := by
  obtain ⟨hlen, hsz, hhd, hh0⟩ := h
  have h0 : rb.head = 0 := hh0 hlt
  unfold RingBuffer.Append RingBuffer.GetAll
  rw [if_pos hlt]
  dsimp only
  rw [List.range_succ, List.map_append]
  congr 1
  · refine List.map_congr_left (fun i hi => ?_)
    have hi' : i < rb.size := by simpa using hi
    rw [h0, List.getD_eq_getElem?_getD, List.getD_eq_getElem?_getD,
      Nat.zero_add, Nat.mod_eq_of_lt (by omega),
      List.getElem?_set_ne (by omega)]
  · simp only [List.map_cons, List.map_nil, h0, Nat.zero_add,
      Nat.mod_eq_of_lt hlt, List.getD_eq_getElem?_getD,
      List.getElem?_set_eq_of_lt v (by omega : rb.size < rb.data.length)]
    rfl

theorem GetAll_Append_full (rb : RingBuffer) (v : ℤ) (h : rb.WF)
    (hfull : ¬ rb.size < rb.capacity) (hc : 0 < rb.capacity) :
    (rb.Append v).GetAll = rb.GetAll.drop 1 ++ [v] := by
  obtain ⟨hlen, hsz, hhd, _⟩ := h
  have hsize : rb.size = rb.capacity := by omega
  unfold RingBuffer.Append RingBuffer.GetAll
  rw [if_neg hfull]
  dsimp only
  refine List.ext_getElem ?_ (fun k hk1 hk2 => ?_)
  · simp [hsize, Nat.sub_add_cancel hc]
  · have hk : k < rb.capacity := by simpa [hsize] using hk1
    rw [List.getElem_map, List.getElem_range]
    rw [Nat.mod_add_mod]
    rcases Nat.lt_or_ge k (rb.capacity - 1) with hklt | hkge
    · -- interior element: comes from the old buffer, shifted by one
      have hdrop : k < (((List.range rb.size).map
          (fun i => rb.data.getD ((rb.head + i) % rb.capacity) 0)).drop 1).length := by
        simp [hsize]; omega
      rw [List.getElem_append_left hdrop, List.getElem_drop,
        List.getElem_map, List.getElem_range]
      have hne : (rb.head + 1 + k) % rb.capacity ≠ rb.head := by
        have := mod_add_ne_self rb.capacity rb.head (1 + k) hhd (by omega) (by omega)
        simpa [Nat.add_assoc] using this
      rw [List.getD_eq_getElem?_getD, List.getD_eq_getElem?_getD,
        List.getElem?_set_ne (Ne.symm hne), Nat.add_assoc]
    · -- last element: the freshly written value
      have hkeq : k = rb.capacity - 1 := by omega
      have hlenleft : (((List.range rb.size).map
          (fun i => rb.data.getD ((rb.head + i) % rb.capacity) 0)).drop 1).length ≤ k := by
        simp [hsize]; omega
      rw [List.getElem_append_right hlenleft]
      have hidx : (rb.head + 1 + k) % rb.capacity = rb.head := by
        have : rb.head + 1 + k = rb.head + rb.capacity := by omega
        rw [this, Nat.add_mod_right, Nat.mod_eq_of_lt hhd]
      rw [hidx, List.getD_eq_getElem?_getD,
        List.getElem?_set_eq_of_lt v (by omega : rb.head < rb.data.length)]
      simp

theorem appendList_spec (c : ℕ) (hc : 0 < c) (vs : List ℤ) :
    (appendList (NewRingBuffer c) vs).WF ∧
    (appendList (NewRingBuffer c) vs).capacity = c ∧
    (appendList (NewRingBuffer c) vs).size = min vs.length c ∧
    (appendList (NewRingBuffer c) vs).GetAll = vs.drop (vs.length - c) := by
  induction vs using List.reverseRecOn with
  | nil =>
    exact ⟨WF_new c hc, rfl, by simp [appendList, NewRingBuffer],
      by simp [appendList, NewRingBuffer, RingBuffer.GetAll]⟩
  | append_singleton ys v ih =>
    obtain ⟨hwf, hcap, hsize, hget⟩ := ih
    have hstep : appendList (NewRingBuffer c) (ys ++ [v]) =
        (appendList (NewRingBuffer c) ys).Append v := by
      simp [appendList]
    set rb := appendList (NewRingBuffer c) ys with hrb
    refine ⟨by rw [hstep]; exact WF_Append rb v hwf,
      by rw [hstep, capacity_Append, hcap],
      ?_, ?_⟩
    · rw [hstep, size_Append rb v hwf.2.1, hsize, hcap]
      simp only [List.length_append, List.length_cons, List.length_nil]
      omega
    · rcases Nat.lt_or_ge ys.length c with hlt | hge
      · have hlt' : rb.size < rb.capacity := by rw [hsize, hcap]; omega
        rw [hstep, GetAll_Append_notFull rb v hwf hlt', hget]
        have h1 : ys.length - c = 0 := by omega
        have h2 : (ys ++ [v]).length - c = 0 := by
          simp only [List.length_append, List.length_cons, List.length_nil]; omega
        rw [h1, h2, List.drop_zero, List.drop_zero]
      · have hfull : ¬ rb.size < rb.capacity := by rw [hsize, hcap]; omega
        have hc' : 0 < rb.capacity := by rw [hcap]; exact hc
        rw [hstep, GetAll_Append_full rb v hwf hfull hc', hget, List.drop_drop]
        have h2 : (ys ++ [v]).length - c = (ys.length - c) + 1 := by
          simp only [List.length_append, List.length_cons, List.length_nil]; omega
        rw [h2, List.drop_append_of_le_length (by omega)]

/-- C4: for every capacity > 0 and every sequence of n Append calls starting
from a fresh buffer, the length of the sequence returned by GetAll (the
snapshot) equals min(n, capacity). -/
theorem C4_snapshot_length (c : ℕ) (vs : List ℤ) (hc : 0 < c) :
    (appendList (NewRingBuffer c) vs).GetAll.length = min vs.length c := by
  have h := appendList_spec c hc vs
  rw [h.2.2.2, List.length_drop]
  omega

theorem C4_witness :
    (appendList (NewRingBuffer 5) [0, 1000, 2000, 3000, 4000, 5000, 6000]).GetAll.length = 5 := by
  have h := C4_snapshot_length 5 [0, 1000, 2000, 3000, 4000, 5000, 6000] (by decide)
  simpa using h

/-- C5: for every sequence of n > capacity Append calls starting from a fresh
buffer, GetAll returns exactly the last capacity appended values in their
original relative order, i.e. the append sequence with exactly its oldest
n - capacity values dropped. -/
theorem C5_snapshot_over_capacity (c : ℕ) (vs : List ℤ) (hc : 0 < c)
    (hover : c < vs.length) :
    (appendList (NewRingBuffer c) vs).GetAll = vs.drop (vs.length - c) :=
  (appendList_spec c hc vs).2.2.2

theorem C5_witness :
    (appendList (NewRingBuffer 5) [0, 1000, 2000, 3000, 4000, 5000]).GetAll
      = [1000, 2000, 3000, 4000, 5000] := by
  have h := C5_snapshot_over_capacity 5 [0, 1000, 2000, 3000, 4000, 5000]
    (by decide) (by decide)
  rw [h]
  rfl

/-- C9: for every sequence of Append calls with non-decreasing arguments, the
snapshot is the most recent size (or capacity, once full) appended timestamps,
oldest to newest, and is itself non-decreasing. -/
theorem C9_sorted_snapshot (c : ℕ) (vs : List ℤ) (hc : 0 < c)
    (hs : List.Sorted (· ≤ ·) vs) :
    (appendList (NewRingBuffer c) vs).GetAll = vs.drop (vs.length - c) ∧
    List.Sorted (· ≤ ·) (appendList (NewRingBuffer c) vs).GetAll := by
  have h := (appendList_spec c hc vs).2.2.2
  refine ⟨h, ?_⟩
  rw [h]
  exact List.Pairwise.sublist (List.drop_sublist _ _) hs

theorem C9_witness :
    (appendList (NewRingBuffer 5) [0, 100, 200, 300, 400, 500, 600]).GetAll
      = [0, 100, 200, 300, 400, 500, 600].drop 2 ∧
    List.Sorted (· ≤ ·) (appendList (NewRingBuffer 5) [0, 100, 200, 300, 400, 500, 600]).GetAll := by
  have h := C9_sorted_snapshot 5 [0, 100, 200, 300, 400, 500, 600] (by decide) (by decide)
  simpa using h

/-- C10: for every buffer created with capacity > 0, any sequence of Append
calls preserves the well-formedness invariant (backing length = capacity,
size ≤ capacity, head < capacity, and head = 0 while size < capacity);
consequently the index Append writes (size when not full, head when full) and
every index GetAll reads ((head+i) % capacity for i < size) are in bounds of
the backing slice. -/
theorem C10_invariant (c : ℕ) (vs : List ℤ) (hc : 0 < c) :
    (appendList (NewRingBuffer c) vs).WF ∧
    ((appendList (NewRingBuffer c) vs).size < (appendList (NewRingBuffer c) vs).capacity →
      (appendList (NewRingBuffer c) vs).size < (appendList (NewRingBuffer c) vs).data.length) ∧
    (appendList (NewRingBuffer c) vs).head < (appendList (NewRingBuffer c) vs).data.length ∧
    (∀ i, i < (appendList (NewRingBuffer c) vs).size →
      ((appendList (NewRingBuffer c) vs).head + i) % (appendList (NewRingBuffer c) vs).capacity
        < (appendList (NewRingBuffer c) vs).data.length) := by
  obtain ⟨⟨hlen, hsz, hhd, hh0⟩, hcap, hsize, hget⟩ := appendList_spec c hc vs
  refine ⟨⟨hlen, hsz, hhd, hh0⟩, by omega, by omega, fun i hi => ?_⟩
  rw [hlen]
  exact Nat.mod_lt _ (by omega)

theorem C10_witness :
    (appendList (NewRingBuffer 3) [1, 2, 3, 4]).WF ∧
    (appendList (NewRingBuffer 3) [1, 2, 3, 4]).head <
      (appendList (NewRingBuffer 3) [1, 2, 3, 4]).data.length :=
  ⟨(C10_invariant 3 [1, 2, 3, 4] (by decide)).1,
   (C10_invariant 3 [1, 2, 3, 4] (by decide)).2.2.1⟩

/-- The backward scan inside `calculateAverageAPM`'s sibling
`calculateCurrentAPM`: Go iterates `i` from `len(actions)-1` down to 0,
breaks at the first entry with `actions[i] < minuteAgo`, and counts the rest.
Scanning the reversed snapshot front-to-back is the same traversal. -/
def countRecent (minuteAgo : ℤ) : List ℤ → ℕ
  | [] => 0
  | t :: rest => if t < minuteAgo then 0 else countRecent minuteAgo rest + 1

/-- Model of `calculateCurrentAPM`: `minuteAgo` is the millisecond reading of
`time.Now().Add(-time.Minute)`, i.e. `now - 60000` for the current millisecond
clock `now`; the snapshot is scanned newest-first with early exit. -/
def calculateCurrentAPM (now : ℤ) (rb : RingBuffer) : ℕ :=
  countRecent (now - 60000) rb.GetAll.reverse

theorem countRecent_sorted (cutoff : ℤ) (l : List ℤ) (hs : List.Sorted (· ≤ ·) l) :
    countRecent cutoff l.reverse = (l.filter (fun t => decide (cutoff ≤ t))).length := by
  induction l using List.reverseRecOn with
  | nil => rfl
  | append_singleton ys t ih =>
    have hs' : List.Pairwise (· ≤ ·) (ys ++ [t]) := hs
    rw [List.pairwise_append] at hs'
    obtain ⟨hys, -, hbound⟩ := hs'
    rw [List.reverse_append, List.filter_append]
    simp only [List.reverse_cons, List.reverse_nil, List.nil_append, List.cons_append,
      List.singleton_append]
    rcases lt_or_le t cutoff with hlt | hge
    · have hnone : ys.filter (fun x => decide (cutoff ≤ x)) = [] := by
        rw [List.filter_eq_nil_iff]
        intro y hy
        have := hbound y hy t (by simp)
        simp only [decide_eq_true_eq]
        omega
      rw [countRecent, if_pos hlt, hnone]
      simp [List.filter_cons, decide_eq_true_eq, not_le.mpr hlt]
    · rw [countRecent, if_neg (not_lt.mpr hge), ih hys]
      simp [List.filter_cons, hge]

/-- C3: for every buffer whose snapshot is non-decreasing and every now at or
after all recorded timestamps, calculateCurrentAPM counts exactly the snapshot
entries t with now - 60000 ≤ t ≤ now (window lower boundary inclusive). -/
theorem C3_current_rate (now : ℤ) (rb : RingBuffer)
    (hs : List.Sorted (· ≤ ·) rb.GetAll) (hle : ∀ t ∈ rb.GetAll, t ≤ now) :
    calculateCurrentAPM now rb =
      (rb.GetAll.filter (fun t => decide (now - 60000 ≤ t) && decide (t ≤ now))).length := by
  unfold calculateCurrentAPM
  rw [countRecent_sorted (now - 60000) rb.GetAll hs]
  congr 1
  refine (List.filter_congr (fun t ht => ?_)).symm
  have := hle t ht
  simp [this]

set_option maxRecDepth 8000 in
theorem C3_witness :
    calculateCurrentAPM 60000
      (appendList (NewRingBuffer 60) ((List.range 60).map (fun i => 1000 * (i : ℤ)))) = 60 := by
  have h := C3_current_rate 60000
    (appendList (NewRingBuffer 60) ((List.range 60).map (fun i => 1000 * (i : ℤ))))
    (by decide) (by decide)
  rw [h]
  decide

/-- Values of Go float64 arithmetic as used by the tracker, idealized over ℚ:
a finite value carries an exact rational. Every float64 value reached in the
claims under study (0.0, 2.0 elapsed minutes, small integer counts, their
quotients) is exactly representable in IEEE double, so on these inputs the
idealization agrees with the Go computation, including the zero-divisor
special values. -/
inductive GoFloat where
  | finite (q : ℚ)
  | posInf
  | negInf
  | nan
  deriving Repr, DecidableEq

/-- float64 division for finite operands, as in `count / elapsedMinutes`: a
zero divisor yields NaN (for 0/0) or a signed infinity (x/0, x ≠ 0) per
IEEE-754; otherwise the exact rational quotient. -/
def floatDiv (a b : ℚ) : GoFloat :=
  if b = 0 then (if a = 0 then GoFloat.nan else if 0 < a then GoFloat.posInf else GoFloat.negInf)
  else GoFloat.finite (a / b)

/-- time.Duration.Minutes() for a duration of d nanoseconds, idealized to the
exact rational d / 60e9 (exact at every duration appearing in the claims). -/
def durationMinutes (d : ℤ) : ℚ := (d : ℚ) / 60000000000

/-- Model of `calculateAverageAPM`: the snapshot length divided by the elapsed
minutes since startTime, with no guard on the divisor. `elapsedNs` is the
value of `time.Since(a.startTime)` in nanoseconds. -/
def calculateAverageAPM (rb : RingBuffer) (elapsedNs : ℤ) : GoFloat :=
  floatDiv ((rb.GetAll.length : ℚ)) (durationMinutes elapsedNs)

theorem length_GetAll (rb : RingBuffer) : rb.GetAll.length = rb.size := by
  simp [RingBuffer.GetAll]

theorem length_GetAll_ten :
    (appendList (NewRingBuffer 3600) (List.replicate 10 0)).GetAll.length = 10 := by
  rw [length_GetAll, (appendList_spec 3600 (by norm_num) _).2.2.1]
  simp

/-- C1: counterexample -- with 10 recorded events and elapsed duration exactly
zero (which the claim covers: below the threshold, including exactly zero),
calculateAverageAPM returns +Inf, not the claimed sentinel 0. -/
theorem C1_cex_infinite_rate :
    calculateAverageAPM (appendList (NewRingBuffer 3600) (List.replicate 10 0)) 0
      = GoFloat.posInf := by
  unfold calculateAverageAPM floatDiv durationMinutes
  rw [length_GetAll_ten]
  norm_num

/-- C1 (amended): calculateAverageAPM has no near-zero guard: at elapsed
duration exactly 0 it returns +Inf when events were recorded and NaN on a
fresh tracker; for every positive elapsed duration -- durations below one
second included -- it returns the exact quotient count/elapsedMinutes rather
than a 0 sentinel; at elapsed exactly 2 minutes with 10 recorded events the
quotient is 5.0 (exact in float64). -/
theorem C1_average_rate (rb : RingBuffer) (d : ℤ)
    (hn : 0 < rb.GetAll.length) (hd : 0 < d) :
    calculateAverageAPM rb 0 = GoFloat.posInf ∧
    calculateAverageAPM (NewRingBuffer 3600) 0 = GoFloat.nan ∧
    calculateAverageAPM rb d
      = GoFloat.finite ((rb.GetAll.length : ℚ) * 60000000000 / (d : ℚ)) ∧
    calculateAverageAPM (appendList (NewRingBuffer 3600) (List.replicate 10 0)) 120000000000
      = GoFloat.finite 5 := by
  refine ⟨?_, ?_, ?_, ?_⟩
  · unfold calculateAverageAPM floatDiv durationMinutes
    have h1 : ((0 : ℤ) : ℚ) / 60000000000 = 0 := by norm_num
    rw [h1, if_pos rfl, if_neg (by positivity), if_pos (by positivity)]
  · have h0 : (NewRingBuffer 3600).GetAll.length = 0 := by rw [length_GetAll]; rfl
    unfold calculateAverageAPM floatDiv durationMinutes
    rw [h0]
    norm_num
  · unfold calculateAverageAPM floatDiv durationMinutes
    have hb : ((d : ℚ)) / 60000000000 ≠ 0 := by positivity
    rw [if_neg hb]
    congr 1
    field_simp
  · unfold calculateAverageAPM floatDiv durationMinutes
    rw [length_GetAll_ten]
    norm_num

theorem C1_witness :
    calculateAverageAPM (appendList (NewRingBuffer 3600) (List.replicate 10 0)) 120000000000
      = GoFloat.finite 5 :=
  (C1_average_rate (appendList (NewRingBuffer 3600) (List.replicate 10 0)) 120000000000
    (by rw [length_GetAll_ten]; norm_num) (by norm_num)).2.2.2

/-- C6: counterexample — at capacity 0, a non-positive capacity, the
constructor succeeds with an empty backing slice: there is no capacity check
and no InvalidConfiguration failure anywhere in `NewRingBuffer`. -/
theorem C6_cex_zero_capacity : NewRingBufferGo 0 = some (NewRingBuffer 0) := rfl

/-- C6 (amended): the constructor performs no capacity validation and has no
error result: for every capacity ≥ 0 — including 0 — construction succeeds
and returns the zero-filled buffer of that capacity; for negative capacity
the Go runtime panics inside make (modelled none), which is a crash, not an
InvalidConfiguration error value. -/
theorem C6_constructor (c : ℤ) :
    (0 ≤ c → NewRingBufferGo c = some (NewRingBuffer c.toNat)) ∧
    (c < 0 → NewRingBufferGo c = none) := by
  constructor <;> intro h
  · rw [NewRingBufferGo, if_neg (not_lt.mpr h)]
  · rw [NewRingBufferGo, if_pos h]

theorem C6_witness : NewRingBufferGo 7 = some (NewRingBuffer 7) :=
  (C6_constructor 7).1 (by decide)

/-- One iteration of the bucket-filling loop in `updateGraph`: a snapshot
entry t with now - t ≤ 60000 increments bucket (now-t)/1000 (Go int64
division truncates toward zero: Int.tdiv); an index outside 0..len-1 is a Go
slice-index panic, modelled as none. Entries with now - t > 60000 are
skipped. -/
def bucketStep (now : ℤ) (acc : Option (List ℕ)) (t : ℤ) : Option (List ℕ) :=
  match acc with
  | none => none
  | some buckets =>
    if now - t ≤ 60000 then
      if 0 ≤ Int.tdiv (now - t) 1000 ∧ (Int.tdiv (now - t) 1000).toNat < buckets.length then
        some (buckets.set (Int.tdiv (now - t) 1000).toNat
          (buckets.getD (Int.tdiv (now - t) 1000).toNat 0 + 1))
      else none
    else some buckets

/-- Model of the bucket computation of `updateGraph`: 60 buckets filled from
the snapshot, left to right; none models the out-of-range index panic. -/
def updateGraphBuckets (now : ℤ) (data : List ℤ) : Option (List ℕ) :=
  data.foldl (bucketStep now) (some (List.replicate 60 0))

/-- C2: at now = 60000 ms with the single snapshot entry t = 0 — an event
exactly at the window boundary, with t ≤ now — the guard now - t ≤ 60000
passes, the bucket index is 60000/1000 = 60, and the access to the 60-element
bucket slice is out of bounds: the loop panics (none) instead of keeping
every access in bounds as the claim states. -/
theorem C2_boundary_bucket_panic : updateGraphBuckets 60000 [0] = none := by
  decide

/-- Model of the `APMTracker` fields the claims depend on: the buffer, the
running peak, and the running flag. GUI handles and binding variables carry
no modelled state; the start time enters `calculateAverageAPM` as the elapsed
duration argument. -/
structure APMTracker where
  actions : RingBuffer
  peakAPM : ℕ
  running : Bool
  deriving Repr, DecidableEq

/-- Model of `NewAPMTracker`: a 3600-slot buffer, peak 0, running. The peak is
a natural number: it starts at 0 and is only ever replaced by a max with a
snapshot count. -/
def NewAPMTracker : APMTracker :=
  { actions := NewRingBuffer 3600, peakAPM := 0, running := true }

/-- Model of `onAction` (RecordEvent): appends the current millisecond
timestamp to the buffer — unconditionally; the source never consults the
running flag here. -/
def onAction (a : APMTracker) (nowMillis : ℤ) : APMTracker :=
  { a with actions := a.actions.Append nowMillis }

/-- Model of `onClosing` (session end): clears the running flag. (The
app.Quit() call only tears down the GUI event loop.) -/
def onClosing (a : APMTracker) : APMTracker :=
  { a with running := false }

/-- Model of the tracker-state change of one `updateGUI` tick: when not
running it returns immediately; otherwise the peak becomes
max(peakAPM, currentAPM), where currentAPM is the CurrentRate value computed
at this tick. `int(math.Max(float64(p), float64(c)))` is exactly max for
non-negative ints below 2^53. The label text and graph refresh mutate no
modelled state. -/
def updateGUIStep (a : APMTracker) (currentAPM : ℕ) : APMTracker :=
  if a.running then { a with peakAPM := max a.peakAPM currentAPM } else a

/-- A sequence of updateGUI ticks with the given observed CurrentRate
values. -/
def runTicks (a : APMTracker) (rs : List ℕ) : APMTracker :=
  rs.foldl updateGUIStep a

theorem running_updateGUIStep (a : APMTracker) (r : ℕ) :
    (updateGUIStep a r).running = a.running := by
  unfold updateGUIStep; split <;> rfl

theorem peak_runTicks (rs : List ℕ) : ∀ a : APMTracker, a.running = true →
    (runTicks a rs).peakAPM = max a.peakAPM (rs.foldr max 0) := by
  induction rs with
  | nil => intro a _; simp [runTicks]
  | cons r rs ih =>
    intro a h
    have hrun : (updateGUIStep a r).running = true := by rw [running_updateGUIStep, h]
    have : runTicks a (r :: rs) = runTicks (updateGUIStep a r) rs := rfl
    rw [this, ih _ hrun]
    simp only [updateGUIStep, h, if_true, List.foldr_cons]
    omega

theorem peak_mono (rs : List ℕ) : ∀ a : APMTracker,
    a.peakAPM ≤ (runTicks a rs).peakAPM := by
  induction rs with
  | nil => intro a; exact le_refl _
  | cons r rs ih =>
    intro a
    have hstep : a.peakAPM ≤ (updateGUIStep a r).peakAPM := by
      unfold updateGUIStep; split
      · exact le_max_left _ _
      · exact le_refl _
    exact le_trans hstep (ih (updateGUIStep a r))

/-- C7: starting from a fresh tracker, after any sequence of CurrentRate
observations the recorded peak equals the maximum observed value (0 for the
empty sequence, i.e. when CurrentRate was never computed), and the peak never
decreases when the sequence is extended by another observation. -/
theorem C7_peak_rate (rs : List ℕ) (r : ℕ) :
    (runTicks NewAPMTracker rs).peakAPM = rs.foldr max 0 ∧
    (runTicks NewAPMTracker rs).peakAPM ≤ (runTicks NewAPMTracker (rs ++ [r])).peakAPM ∧
    NewAPMTracker.peakAPM = 0 := by
  refine ⟨?_, ?_, rfl⟩
  · have h := peak_runTicks rs NewAPMTracker rfl
    simpa [NewAPMTracker] using h
  · have h : runTicks NewAPMTracker (rs ++ [r]) = runTicks (runTicks NewAPMTracker rs) [r] := by
      unfold runTicks
      rw [List.foldl_append]
    rw [h]
    exact peak_mono [r] (runTicks NewAPMTracker rs)

/-- C8: counterexample — on the stopped tracker (after onClosing), a
RecordEvent (onAction) call is not a no-op: the buffer size changes from 0 to
1, so the buffer is mutated after the Active → Stopped transition. -/
theorem C8_cex_stopped_append :
    (onAction (onClosing NewAPMTracker) 5).actions.size = 1 ∧
    (onClosing NewAPMTracker).actions.size = 0 := by
  constructor <;> rfl

/-- C8 (amended): after the Active → Stopped transition, RecordEvent
(onAction) still appends — the source never consults the running flag there,
so the snapshot gains the new timestamp exactly as when running — while the
periodic updateGUI tick does become a no-op on the tracker state, and
queries keep being served from the buffer. -/
theorem C8_stopped_behaviour (a : APMTracker) (t : ℤ) (r : ℕ)
    (h : a.running = false) (hwf : a.actions.WF) :
    (onAction a t).actions.GetAll
      = (if a.actions.size < a.actions.capacity then a.actions.GetAll ++ [t]
         else a.actions.GetAll.drop 1 ++ [t]) ∧
    updateGUIStep a r = a := by
  refine ⟨?_, by simp [updateGUIStep, h]⟩
  by_cases hful : a.actions.size < a.actions.capacity
  · rw [if_pos hful]
    exact GetAll_Append_notFull _ _ hwf hful
  · rw [if_neg hful]
    exact GetAll_Append_full _ _ hwf hful (by have := hwf.2.2.1; omega)

theorem C8_witness :
    (onAction (onClosing NewAPMTracker) 7).actions.GetAll
      = (if (onClosing NewAPMTracker).actions.size < (onClosing NewAPMTracker).actions.capacity
         then (onClosing NewAPMTracker).actions.GetAll ++ [7]
         else (onClosing NewAPMTracker).actions.GetAll.drop 1 ++ [7]) ∧
    updateGUIStep (onClosing NewAPMTracker) 3 = onClosing NewAPMTracker :=
  C8_stopped_behaviour (onClosing NewAPMTracker) 7 3 rfl (WF_new 3600 (by norm_num))
